import Mathlib

/-!
Verification of the deal reconciliation engine of the OpenSea monitoring bot.

The development shallowly embeds the Python sources:
* `run_top_collections_once.py` : `extract_pricing`, `calculate_difference`;
* `telegram_bot_aiogram_fixed.py` : `filter_deals`, `format_deal`,
  `fetch_deals`, and the per-subscriber reconciliation step of
  `global_monitor_loop` (lines 489-559).

Modelling conventions:
* Python floats are modelled as rationals (`ℚ`).
* Python `None` becomes `Option.none`; a `dict` value that may be absent is
  an `Option` field.  Python truthiness of strings (`None` and `""` are
  falsy) is modelled explicitly where the source relies on it.
* Python `dict`s with string keys are modelled as association lists in
  insertion order, because the reconciliation loop iterates over them in
  insertion order.  `dictInsert` mirrors `d[k] = v` (update in place keeps
  the position, otherwise append) and `eraseKey` mirrors `d.pop(k)`.
* The Telegram sink (`bot.send_message` / `edit_message_text` /
  `delete_message`) is an oracle `Sink`; a raised exception is modelled as
  `none` / `false`.
-/

namespace OpenSea

/-- First value stored under key `k`, like `d[k]` / `d.get(k)`. -/
def lookupKey {α : Type} (l : List (String × α)) (k : String) : Option α :=
  match l with
  | [] => none
  | (k', v) :: t => if k' = k then some v else lookupKey t k

/-- `k in d` for the association-list dictionary. -/
def hasKey {α : Type} (l : List (String × α)) (k : String) : Bool :=
  (lookupKey l k).isSome

/-- `d.pop(k, None)`: remove every binding of `k` (a Python dict holds at
most one). -/
def eraseKey {α : Type} (l : List (String × α)) (k : String) : List (String × α) :=
  l.filter (fun p => decide (p.1 ≠ k))

/-- `d[k] = v`: overwrite in place when the key exists (keeping its
position, as Python dicts do), otherwise append at the end. -/
def dictInsert {α : Type} (l : List (String × α)) (k : String) (v : α) : List (String × α) :=
  if hasKey l k then l.map (fun p => if p.1 = k then (k, v) else p)
  else l ++ [(k, v)]

/-- Python truthiness of an optional string: `None` and `""` are falsy. -/
def pyTruthy (s : Option String) : Bool :=
  match s with
  | none => false
  | some t => if t = "" then false else true

/-- One deal dictionary as assembled by `fetch_deals`
(`telegram_bot_aiogram_fixed.py` lines 354-364); key `"list"` is the
field `list`. -/
structure Deal where
  collection : String
  slug : Option String
  price : Option ℚ
  list : Option ℚ
  offer : Option ℚ
  difference_percent : Option ℚ
  link : Option String
deriving DecidableEq, Repr

/-- The per-deal inclusion test of `filter_deals` (lines 383-395): skip when
the slug (with `None` coerced to `""`) is excluded, when price or spread is
undefined, when the price leaves `[price_min, price_max]`, or when the
spread exceeds `diff_max`. -/
def dealMatches (price_min price_max diff_max : ℚ) (excluded : List String)
    (d : Deal) : Bool :=
  let slug := d.slug.getD ""
  if slug ∈ excluded then false
  else
    match d.price, d.difference_percent with
    | some price, some diff =>
      if price < price_min ∨ price > price_max then false
      else if diff > diff_max then false
      else true
    | _, _ => false

/-- Sort key of `filtered.sort(key=lambda x: x.get("difference_percent", float("inf")))`.
Every kept deal has a defined `difference_percent`, so the default is never
consulted; `0` is an arbitrary placeholder for the unreachable branch. -/
def sortKey (d : Deal) : ℚ :=
  d.difference_percent.getD 0

/-- `filter_deals` (lines 374-397): keep the matching deals, then sort
ascending by spread with Python's stable `list.sort`. -/
def filter_deals (deals : List Deal) (price_min price_max diff_max : ℚ)
    (excluded : List String) : List Deal :=
  (deals.filter (dealMatches price_min price_max diff_max excluded)).mergeSort
    (fun a b => decide (sortKey a ≤ sortKey b))

/-- Round to the nearest integer, halves to even, as Python float
formatting does. -/
def roundHalfEven (q : ℚ) : ℤ :=
  let fl : ℤ := q.floor
  let frac : ℚ := q - (fl : ℚ)
  if frac < 1 / 2 then fl
  else if 1 / 2 < frac then fl + 1
  else if fl % 2 = 0 then fl else fl + 1

/-- Left-pad a digit string with zeros to length `d`. -/
def padZeros (s : String) (d : Nat) : String :=
  String.mk (List.replicate (d - s.length) (Char.ofNat 48)) ++ s

/-- Fixed-point decimal rendering of a rational, the model of Python's
`f"{x:.df}"` formatting of a float. -/
def fmtFixed (q : ℚ) (d : Nat) : String :=
  let scaled : ℤ := roundHalfEven (q * (10 : ℚ) ^ d)
  let sign : String := if scaled < 0 then "-" else ""
  let m : Nat := scaled.natAbs
  if d = 0 then sign ++ toString (m / 10 ^ d)
  else sign ++ toString (m / 10 ^ d) ++ "." ++ padZeros (toString (m % 10 ^ d)) d

/-- `f"{v:.df}" if isinstance(v, (int, float)) else "?"`. -/
def fmtOpt (q : Option ℚ) (d : Nat) : String :=
  match q with
  | some v => fmtFixed v d
  | none => "?"

/-- An ASCII apostrophe, used in the rendered HTML link. -/
def squote : String := String.singleton (Char.ofNat 39)

/-- `format_deal` (lines 426-448): the pure renderer whose output string is
the change-detection fingerprint. -/
def format_deal (deal : Deal) : String :=
  let name := deal.collection
  let price_str := fmtOpt deal.price 2
  let floor_str := fmtOpt deal.list 4
  let offer_str := fmtOpt deal.offer 4
  let diff_str := fmtOpt deal.difference_percent 2
  let title :=
    if pyTruthy deal.link then
      "<a href=" ++ squote ++ deal.link.getD "" ++ squote ++ ">" ++ name ++ "</a>"
    else name
  title ++ "\n" ++
    "   💵 Цена: $" ++ price_str ++ "\n" ++
    "   🧾 Floor: " ++ floor_str ++ " ETH\n" ++
    "   🤝 Offer: " ++ offer_str ++ " ETH\n" ++
    "   📉 Разрыв: " ++ diff_str ++ "%"

/-- `native` block of a price: `{"symbol": ..., "unit": ...}`.  `unit` is
`some q` when the value is present and `float()` parses it, `none` when it
is absent or unparseable (the `except` branch). -/
structure NativePrice where
  symbol : Option String
  unit : Option ℚ
deriving DecidableEq, Repr

/-- `pricePerItem` block: `{"usd": ..., "native": ...}`. -/
structure PricePerItem where
  usd : Option ℚ
  native : Option NativePrice
deriving DecidableEq, Repr

/-- `floorPrice` / `topOffer` block.  `none` covers both an absent and an
empty (falsy) dictionary. -/
structure PriceInfo where
  pricePerItem : Option PricePerItem
deriving DecidableEq, Repr

/-- One raw API collection item, restricted to the fields the pipeline
reads. -/
structure RawItem where
  name : Option String
  slug : Option String
  floorPrice : Option PriceInfo
  topOffer : Option PriceInfo
deriving DecidableEq, Repr

/-- Result triple of `extract_pricing`. -/
structure Pricing where
  usd_floor : Option ℚ
  eth_floor : Option ℚ
  eth_offer : Option ℚ
deriving DecidableEq, Repr

/-- `extract_pricing` (`run_top_collections_once.py` lines 698-749): the
USD floor is taken whenever parseable; the native floor and offer are taken
only when the native block exists, its `symbol` is exactly `"ETH"`, and its
`unit` is present and parseable. -/
def extract_pricing (item : RawItem) : Pricing :=
  let usd_floor : Option ℚ :=
    match item.floorPrice with
    | none => none
    | some fp =>
      match fp.pricePerItem with
      | none => none
      | some ppi => ppi.usd
  let eth_floor : Option ℚ :=
    match item.floorPrice with
    | none => none
    | some fp =>
      match fp.pricePerItem with
      | none => none
      | some ppi =>
        match ppi.native with
        | none => none
        | some native => if native.symbol = some "ETH" then native.unit else none
  let eth_offer : Option ℚ :=
    match item.topOffer with
    | none => none
    | some fp =>
      match fp.pricePerItem with
      | none => none
      | some ppi =>
        match ppi.native with
        | none => none
        | some native => if native.symbol = some "ETH" then native.unit else none
  ⟨usd_floor, eth_floor, eth_offer⟩

/-- `calculate_difference` (lines 752-771): `((floor - offer) / floor) * 100`,
or `None` when either input is missing or the floor is zero. -/
def calculate_difference (floor_eth offer_eth : Option ℚ) : Option ℚ :=
  match floor_eth, offer_eth with
  | some f, some o => if f = 0 then none else some ((f - o) / f * 100)
  | _, _ => none

/-- Native-currency symbol sitting under `floorPrice.pricePerItem.native`. -/
def floorNativeSymbol (item : RawItem) : Option String :=
  ((item.floorPrice.bind PriceInfo.pricePerItem).bind PricePerItem.native).bind
    NativePrice.symbol

/-- Native-currency symbol sitting under `topOffer.pricePerItem.native`. -/
def offerNativeSymbol (item : RawItem) : Option String :=
  ((item.topOffer.bind PriceInfo.pricePerItem).bind PricePerItem.native).bind
    NativePrice.symbol

/-- The deal dictionary `fetch_deals` builds from one raw item
(lines 348-364), including the Python-truthiness fallbacks for the name
and the link. -/
def dealOfItem (item : RawItem) : Deal :=
  let name :=
    if pyTruthy item.name then item.name.getD ""
    else if pyTruthy item.slug then item.slug.getD ""
    else "Unknown Collection"
  let link :=
    if pyTruthy item.slug then
      some ("https://opensea.io/collection/" ++ item.slug.getD "")
    else none
  let pricing := extract_pricing item
  { collection := name
    slug := item.slug
    price := pricing.usd_floor
    list := pricing.eth_floor
    offer := pricing.eth_offer
    difference_percent := calculate_difference pricing.eth_floor pricing.eth_offer
    link := link }

/-- One display operation attempted against the Telegram sink. -/
inductive DisplayOp where
  | del (key : String) (messageId : Nat)
  | create (key : String) (text : String)
  | update (key : String) (messageId : Nat) (text : String)
deriving DecidableEq, Repr

/-- Identity an operation touches. -/
def opKey : DisplayOp → String
  | DisplayOp.del k _ => k
  | DisplayOp.create k _ => k
  | DisplayOp.update k _ _ => k

/-- `true` exactly on `del` operations. -/
def opIsDel : DisplayOp → Bool
  | DisplayOp.del _ _ => true
  | _ => false

/-- Rank of an operation kind in the order the specification prescribes:
deletes, then creates, then updates. -/
def opRank : DisplayOp → Nat
  | DisplayOp.del _ _ => 0
  | DisplayOp.create _ _ => 1
  | DisplayOp.update _ _ _ => 2

/-- Outcome oracle for the Telegram sink.  `send` returns the new message
id or `none` when `bot.send_message` raises; `edit` and `remove` return
whether `bot.edit_message_text` / `bot.delete_message` succeed. -/
structure Sink where
  send : String → String → Option Nat
  edit : Nat → String → Bool
  remove : Nat → Bool

/-- Per-subscriber display state: `user_deal_messages[uid]`,
`last_deal_data[uid]`, `last_deal_text[uid]`. -/
structure SubState where
  messages : List (String × Nat)
  lastData : List (String × Deal)
  lastText : List (String × String)
deriving DecidableEq, Repr

/-- Reconciliation key of a deal (line 492):
`d.get("slug") or d.get("link") or d.get("collection")` under Python
truthiness; `collection` is always a string, so the `key is None` guard of
line 493 never fires for deals built by `fetch_deals`. -/
def dealKey (d : Deal) : String :=
  if pyTruthy d.slug then d.slug.getD ""
  else if pyTruthy d.link then d.link.getD ""
  else d.collection

/-- `current_deals` (lines 490-495): an insertion-ordered dictionary from
reconciliation key to deal. -/
def buildCurrent (deals : List Deal) : List (String × Deal) :=
  deals.foldl (fun acc d => dictInsert acc (dealKey d) d) []

/-- The `Remove outdated deals` loop (lines 506-516): walk a snapshot of
the tracked keys; every key absent from `current_deals` is popped from all
three dictionaries and a delete is attempted.  The sink outcome only
drives the menu-refresh flag, so a failed delete still removes the entry. -/
def deleteLoop (curKeys : List String) (snapshot : List (String × Nat))
    (st : SubState) : SubState × List DisplayOp :=
  match snapshot with
  | [] => (st, [])
  | (k, mid) :: rest =>
    if k ∈ curKeys then deleteLoop curKeys rest st
    else
      let st1 : SubState :=
        ⟨eraseKey st.messages k, eraseKey st.lastData k, eraseKey st.lastText k⟩
      let r := deleteLoop curKeys rest st1
      (r.1, DisplayOp.del k mid :: r.2)

/-- The body of the `Process current deals` loop for one entry
(lines 519-559).  Untracked key: attempt a send, record the entry in all
three dictionaries only on success (lines 522-536).  Tracked key with
unchanged rendered text: nothing (lines 539-541).  Otherwise attempt an
edit; on success refresh `last_deal_data` / `last_deal_text`, on failure
pop the key from all three dictionaries (lines 543-559). -/
def processStep (sink : Sink) (st : SubState) (k : String) (deal : Deal) :
    SubState × List DisplayOp :=
  let text := format_deal deal
  match lookupKey st.messages k with
  | none =>
    match sink.send k text with
    | some mid =>
      (⟨dictInsert st.messages k mid, dictInsert st.lastData k deal,
          dictInsert st.lastText k text⟩, [DisplayOp.create k text])
    | none => (st, [DisplayOp.create k text])
  | some mid =>
    if lookupKey st.lastText k = some text then (st, [])
    else if sink.edit mid text then
      (⟨st.messages, dictInsert st.lastData k deal, dictInsert st.lastText k text⟩,
        [DisplayOp.update k mid text])
    else
      (⟨eraseKey st.messages k, eraseKey st.lastData k, eraseKey st.lastText k⟩,
        [DisplayOp.update k mid text])

/-- The `Process current deals` loop (lines 519-559): `processStep` on each
entry of `current_deals` in insertion order, threading the state. -/
def processLoop (sink : Sink) (st : SubState) (cur : List (String × Deal)) :
    SubState × List DisplayOp :=
  match cur with
  | [] => (st, [])
  | (k, deal) :: rest =>
    let r := processStep sink st k deal
    let r2 := processLoop sink r.1 rest
    (r2.1, r.2 ++ r2.2)

/-- One subscriber's reconciliation step (lines 489-559): build
`current_deals`, run the delete loop over a snapshot of the tracked keys,
then the create/update loop; the attempted operations are listed in
emission order. -/
def processUser (sink : Sink) (deals : List Deal) (st : SubState) :
    SubState × List DisplayOp :=
  let cur := buildCurrent deals
  let r1 := deleteLoop (cur.map Prod.fst) st.messages st
  let r2 := processLoop sink r1.1 cur
  (r2.1, r1.2 ++ r2.2)

/-- Per-subscriber filter configuration (`user_settings[uid]`). -/
structure UserCfg where
  pages : Nat
  price_min : ℚ
  price_max : ℚ
  diff_max : ℚ
  excluded : List String
  monitoring : Bool
deriving DecidableEq, Repr

/-- `fetch_deals(pages)` (lines 334-371): one task per page index, results
concatenated in page order.  `pageResults i` is the parsed result of page
`i`; a page whose fetch raises contributes `[]` (lines 343-346). -/
def fetch_deals (pageResults : Nat → List Deal) (pages : Nat) : List Deal :=
  (List.range pages).flatMap pageResults

/-- The active subscribers of one cycle (line 466). -/
def activeUsers (users : List (Nat × UserCfg)) : List (Nat × UserCfg) :=
  users.filter (fun u => u.2.monitoring)

/-- `max_pages` (line 470): maximum page depth over the active
subscribers; the loop has already ended when none is active, so the
`foldl` default is never the answer there. -/
def maxPages (users : List (Nat × UserCfg)) : Nat :=
  ((activeUsers users).map (fun u => u.2.pages)).foldl max 0

/-- Lines 471-476: the whole-cycle fetch guarded by `try/except`; a raise
degrades to the empty snapshot set. -/
def cycleRaw (fetchResult : Except String (List Deal)) : List Deal :=
  match fetchResult with
  | Except.ok ds => ds
  | Except.error _ => []

/-- The deals one subscriber's filter sees (lines 480-486). -/
def userDeals (raw : List Deal) (cfg : UserCfg) : List Deal :=
  filter_deals raw cfg.price_min cfg.price_max cfg.diff_max cfg.excluded

/-- The filtered deal list computed for one subscriber in one successful
cycle (lines 470-486): one shared fetch at the maximum depth, then that
subscriber's filter over the whole fetched set. -/
def cycleDealsFor (users : List (Nat × UserCfg)) (pageResults : Nat → List Deal)
    (cfg : UserCfg) : List Deal :=
  userDeals (fetch_deals pageResults (maxPages users)) cfg

/-- The ordering predicate claimed by the specification for `filter_deals`
output: ascending spread, ties broken by identity (slug). -/
def specTieOrder (a b : Deal) : Prop :=
  sortKey a < sortKey b ∨ (sortKey a = sortKey b ∧ a.slug.getD "" ≤ b.slug.getD "")

/-! ### Concrete test fixtures -/

/-- A sink whose calls all succeed. -/
def sinkOk : Sink := ⟨fun _ _ => some 7, fun _ _ => true, fun _ => true⟩

/-- A sink whose `send_message` always raises. -/
def sinkSendFail : Sink := ⟨fun _ _ => none, fun _ _ => true, fun _ => true⟩

/-- A sink whose `edit_message_text` always raises. -/
def sinkEditFail : Sink := ⟨fun _ _ => some 7, fun _ _ => false, fun _ => true⟩

/-- A matching deal with spread 0. -/
def dealA : Deal := ⟨"A", some "a", some 1, none, none, some 0, none⟩

/-- A matching deal with spread 1. -/
def dealB : Deal := ⟨"B", some "b", some 1, none, none, some 1, none⟩

/-- Tied spread, slug `"a"`. -/
def dealTieA : Deal := ⟨"A", some "a", some 1, none, none, some 1, none⟩

/-- Tied spread, slug `"b"`. -/
def dealTieB : Deal := ⟨"B", some "b", some 1, none, none, some 1, none⟩

/-- A deal with an undefined USD price. -/
def dealNoPrice : Deal := ⟨"N", some "n", none, none, none, some 0, none⟩

/-- Empty display state. -/
def stEmpty : SubState := ⟨[], [], []⟩

/-- Display state tracking `"a"` with a stale rendered text. -/
def stA : SubState := ⟨[("a", 5)], [("a", dealA)], [("a", "stale")]⟩

/-- Display state tracking `"a"` with the current rendered text of `dealA`. -/
def stGood : SubState := ⟨[("a", 5)], [("a", dealA)], [("a", format_deal dealA)]⟩

/-- An active subscriber asking for 1 page. -/
def cfgA : UserCfg := ⟨1, 0, 10, 10, [], true⟩

/-- An active subscriber asking for 2 pages. -/
def cfgB : UserCfg := ⟨2, 0, 10, 10, [], true⟩

/-- Two active subscribers with different page depths. -/
def cycUsers : List (Nat × UserCfg) := [(1, cfgA), (2, cfgB)]

/-- Page oracle: page 1 (the second page) holds the matching deal. -/
def cycPr : Nat → List Deal := fun i => if i = 1 then [dealA] else []

/-- A raw item priced in a non-ETH native currency on both sides. -/
def itemSol : RawItem :=
  ⟨some "Solana Thing", some "solthing",
    some ⟨some ⟨some 5, some ⟨some "SOL", some 2⟩⟩⟩,
    some ⟨some ⟨none, some ⟨some "SOL", some 1⟩⟩⟩⟩

/-! ### Dictionary lemmas -/

theorem lookupKey_cons {α : Type} (k1 : String) (v1 : α) (t : List (String × α))
    (k : String) :
    lookupKey ((k1, v1) :: t) k = if k1 = k then some v1 else lookupKey t k := rfl

theorem lookupKey_eq_none {α : Type} (l : List (String × α)) (k : String) :
    lookupKey l k = none ↔ k ∉ l.map Prod.fst := by
  induction l with
  | nil => simp [lookupKey]
  | cons p t ih =>
    obtain ⟨k', v⟩ := p
    by_cases h : k' = k
    · subst h
      simp [lookupKey_cons]
    · rw [lookupKey_cons, if_neg h, ih]
      simp only [List.map_cons, List.mem_cons]
      constructor
      · intro hnk hor
        rcases hor with hor | hor
        · exact h hor.symm
        · exact hnk hor
      · intro hnot hm
        exact hnot (Or.inr hm)

theorem hasKey_iff_mem {α : Type} (l : List (String × α)) (k : String) :
    hasKey l k = true ↔ k ∈ l.map Prod.fst := by
  rw [hasKey, Option.isSome_iff_ne_none, ne_eq, lookupKey_eq_none, not_not]

theorem lookupKey_mem {α : Type} {l : List (String × α)} {k : String} {v : α}
    (h : lookupKey l k = some v) : (k, v) ∈ l := by
  induction l with
  | nil => simp [lookupKey] at h
  | cons p t ih =>
    obtain ⟨k', v'⟩ := p
    by_cases hk : k' = k
    · simp [lookupKey, hk] at h
      simp [hk, h]
    · simp [lookupKey, hk] at h
      exact List.mem_cons_of_mem _ (ih h)

theorem lookupKey_eraseKey {α : Type} (l : List (String × α)) (k k' : String) :
    lookupKey (eraseKey l k) k' = if k' = k then none else lookupKey l k' := by
  induction l with
  | nil => simp [lookupKey, eraseKey]
  | cons p t ih =>
    obtain ⟨k1, v1⟩ := p
    by_cases h1 : k1 = k <;> by_cases h2 : k' = k <;>
      by_cases h3 : k1 = k' <;>
      simp_all [lookupKey, eraseKey]

theorem lookupKey_append {α : Type} (l1 l2 : List (String × α)) (k : String) :
    lookupKey (l1 ++ l2) k =
      match lookupKey l1 k with
      | some v => some v
      | none => lookupKey l2 k := by
  induction l1 with
  | nil => simp [lookupKey]
  | cons p t ih =>
    obtain ⟨k1, v1⟩ := p
    by_cases h : k1 = k <;> simp [lookupKey, h, ih]

theorem lookupKey_mapUpdate {α : Type} (l : List (String × α)) (k k' : String) (v : α) :
    lookupKey (l.map (fun p => if p.1 = k then (k, v) else p)) k' =
      if k' = k then (if hasKey l k then some v else none) else lookupKey l k' := by
  induction l with
  | nil => by_cases h2 : k' = k <;> simp [lookupKey, hasKey, h2]
  | cons p t ih =>
    obtain ⟨k1, v1⟩ := p
    simp only [List.map_cons]
    by_cases h1 : k1 = k
    · subst h1
      rw [if_pos rfl, lookupKey_cons]
      have hk : hasKey ((k1, v1) :: t) k1 = true := by
        simp [hasKey, lookupKey_cons]
      by_cases h2 : k' = k1
      · subst h2
        simp [hk]
      · have h2' : ¬k1 = k' := fun h => h2 h.symm
        simp [ih, h2, h2', lookupKey_cons]
    · rw [if_neg h1, lookupKey_cons]
      have hk : hasKey ((k1, v1) :: t) k = hasKey t k := by
        simp [hasKey, lookupKey_cons, h1]
      by_cases h3 : k1 = k'
      · subst h3
        simp [lookupKey_cons, h1]
      · rw [if_neg h3, ih, hk]
        by_cases h2 : k' = k
        · simp [h2]
        · simp [h2, lookupKey_cons, h3]

theorem lookupKey_dictInsert {α : Type} (l : List (String × α)) (k : String) (v : α)
    (k' : String) :
    lookupKey (dictInsert l k v) k' = if k' = k then some v else lookupKey l k' := by
  unfold dictInsert
  by_cases hk : hasKey l k
  · simp [hk, lookupKey_mapUpdate]
  · rw [if_neg (by simp [hk]), lookupKey_append]
    have hnone : lookupKey l k = none := by
      cases hlo : lookupKey l k with
      | none => rfl
      | some w => exact absurd (by simp [hasKey, hlo]) hk
    by_cases h2 : k' = k
    · subst h2
      simp [hnone, lookupKey]
    · cases hlo : lookupKey l k' with
      | none => simp [lookupKey, h2, Ne.symm h2]
      | some w => simp [h2]

theorem hasKey_dictInsert {α : Type} (l : List (String × α)) (k : String) (v : α)
    (k' : String) :
    hasKey (dictInsert l k v) k' = true ↔ k' = k ∨ hasKey l k' = true := by
  rw [hasKey, lookupKey_dictInsert]
  by_cases h : k' = k <;> simp [h, hasKey]

theorem keys_dictInsert {α : Type} (l : List (String × α)) (k : String) (v : α) :
    (dictInsert l k v).map Prod.fst =
      if hasKey l k then l.map Prod.fst else l.map Prod.fst ++ [k] := by
  unfold dictInsert
  by_cases hk : hasKey l k
  · simp only [hk, if_true, List.map_map]
    refine List.map_congr_left fun p _ => ?_
    by_cases h : p.1 = k <;> simp [h]
  · simp [hk]

theorem nodup_keys_dictInsert {α : Type} {l : List (String × α)} (k : String) (v : α)
    (h : (l.map Prod.fst).Nodup) : ((dictInsert l k v).map Prod.fst).Nodup := by
  rw [keys_dictInsert]
  by_cases hk : hasKey l k
  · simpa [hk] using h
  · have : k ∉ l.map Prod.fst := by
      intro hm
      exact hk ((hasKey_iff_mem l k).mpr hm)
    simp [hk, List.nodup_append, h, this]

/-! ### `buildCurrent` lemmas -/

theorem buildCurrent_go_nodup :
    ∀ (ds : List Deal) (acc : List (String × Deal)), (acc.map Prod.fst).Nodup →
      (((ds.foldl (fun acc d => dictInsert acc (dealKey d) d) acc)).map Prod.fst).Nodup := by
  intro ds
  induction ds with
  | nil => intro acc h; simpa using h
  | cons d t ih =>
    intro acc h
    exact ih _ (nodup_keys_dictInsert _ _ h)

theorem buildCurrent_keys_nodup (deals : List Deal) :
    ((buildCurrent deals).map Prod.fst).Nodup :=
  buildCurrent_go_nodup deals [] (by simp)

theorem buildCurrent_go_hasKey :
    ∀ (ds : List Deal) (acc : List (String × Deal)) (k : String),
      hasKey (ds.foldl (fun acc d => dictInsert acc (dealKey d) d) acc) k = true ↔
        hasKey acc k = true ∨ ∃ d ∈ ds, dealKey d = k := by
  intro ds
  induction ds with
  | nil => intro acc k; simp
  | cons d t ih =>
    intro acc k
    rw [List.foldl_cons, ih]
    rw [hasKey_dictInsert]
    constructor
    · rintro (⟨h | h⟩ | h)
      · exact Or.inr ⟨d, List.mem_cons_self d t, h.symm⟩
      · exact Or.inl h
      · obtain ⟨d', hd', hk⟩ := h
        exact Or.inr ⟨d', List.mem_cons_of_mem _ hd', hk⟩
    · rintro (h | ⟨d', hd', hk⟩)
      · exact Or.inl (Or.inr h)
      · rcases List.mem_cons.mp hd' with h1 | h1

        · exact Or.inl (Or.inl (by rw [h1] at hk; exact hk.symm))
        · exact Or.inr ⟨d', h1, hk⟩

theorem buildCurrent_hasKey (deals : List Deal) (k : String) :
    hasKey (buildCurrent deals) k = true ↔ ∃ d ∈ deals, dealKey d = k := by
  rw [buildCurrent, buildCurrent_go_hasKey]
  simp [hasKey, lookupKey]

/-! ### `deleteLoop` lemmas -/

theorem deleteLoop_lookup (curKeys : List String) (snapshot : List (String × Nat))
    (st : SubState) (k : String) :
    lookupKey (deleteLoop curKeys snapshot st).1.messages k =
      (if k ∉ curKeys ∧ k ∈ snapshot.map Prod.fst then none
       else lookupKey st.messages k) ∧
    lookupKey (deleteLoop curKeys snapshot st).1.lastData k =
      (if k ∉ curKeys ∧ k ∈ snapshot.map Prod.fst then none
       else lookupKey st.lastData k) ∧
    lookupKey (deleteLoop curKeys snapshot st).1.lastText k =
      (if k ∉ curKeys ∧ k ∈ snapshot.map Prod.fst then none
       else lookupKey st.lastText k) := by
  induction snapshot generalizing st with
  | nil => simp [deleteLoop]
  | cons p rest ih =>
    obtain ⟨k1, mid⟩ := p
    by_cases h1 : k1 ∈ curKeys
    · rw [deleteLoop, if_pos h1]
      obtain ⟨i1, i2, i3⟩ := ih st
      rw [i1, i2, i3]
      have hcond : (k ∉ curKeys ∧ k ∈ rest.map Prod.fst)
          ↔ (k ∉ curKeys ∧ k ∈ (((k1, mid) :: rest).map Prod.fst)) := by
        by_cases hk : k = k1
        · subst hk
          simp [h1]
        · simp [hk]
      rw [if_congr hcond rfl rfl, if_congr hcond rfl rfl, if_congr hcond rfl rfl]
      exact ⟨rfl, rfl, rfl⟩
    · rw [deleteLoop, if_neg h1]
      obtain ⟨i1, i2, i3⟩ :=
        ih ⟨eraseKey st.messages k1, eraseKey st.lastData k1, eraseKey st.lastText k1⟩
      refine ⟨?_, ?_, ?_⟩
      · rw [i1]
        by_cases hk : k = k1
        · subst hk
          simp [h1, lookupKey_eraseKey, ite_self]
        · simp [lookupKey_eraseKey, if_neg hk, List.map_cons, List.mem_cons, hk,
            false_or]
          exact if_congr (by simp [hk]) rfl rfl
      · rw [i2]
        by_cases hk : k = k1
        · subst hk
          simp [h1, lookupKey_eraseKey, ite_self]
        · simp [lookupKey_eraseKey, if_neg hk, List.map_cons, List.mem_cons, hk,
            false_or]
          exact if_congr (by simp [hk]) rfl rfl
      · rw [i3]
        by_cases hk : k = k1
        · subst hk
          simp [h1, lookupKey_eraseKey, ite_self]
        · simp [lookupKey_eraseKey, if_neg hk, List.map_cons, List.mem_cons, hk,
            false_or]
          exact if_congr (by simp [hk]) rfl rfl

theorem deleteLoop_ops (curKeys : List String) (snapshot : List (String × Nat))
    (st : SubState) :
    ∀ op ∈ (deleteLoop curKeys snapshot st).2,
      opIsDel op = true ∧ opKey op ∉ curKeys ∧ opKey op ∈ snapshot.map Prod.fst := by
  induction snapshot generalizing st with
  | nil => simp [deleteLoop]
  | cons p rest ih =>
    obtain ⟨k1, mid⟩ := p
    by_cases h1 : k1 ∈ curKeys
    · rw [deleteLoop, if_pos h1]
      intro op hop
      obtain ⟨a, b, c⟩ := ih st op hop
      exact ⟨a, b, by simp [c]⟩
    · rw [deleteLoop, if_neg h1]
      intro op hop
      rcases List.mem_cons.mp hop with h | h
      · subst h
        exact ⟨rfl, by simpa [opKey] using h1, by simp [opKey]⟩
      · obtain ⟨a, b, c⟩ :=
          ih ⟨eraseKey st.messages k1, eraseKey st.lastData k1, eraseKey st.lastText k1⟩ op h
        exact ⟨a, b, by simp [c]⟩

theorem deleteLoop_all_current (curKeys : List String)
    (snapshot : List (String × Nat)) (st : SubState)
    (h : ∀ p ∈ snapshot, p.1 ∈ curKeys) :
    deleteLoop curKeys snapshot st = (st, []) := by
  induction snapshot with
  | nil => rfl
  | cons p rest ih =>
    obtain ⟨k1, mid⟩ := p
    rw [deleteLoop, if_pos (h (k1, mid) (List.mem_cons_self _ _))]
    exact ih fun q hq => h q (List.mem_cons_of_mem _ hq)

/-! ### `processStep` lemmas -/

theorem processStep_ops (sink : Sink) (st : SubState) (k : String) (deal : Deal) :
    ∀ op ∈ (processStep sink st k deal).2, opIsDel op = false ∧ opKey op = k := by
  simp only [processStep]
  cases lookupKey st.messages k with
  | none =>
    cases sink.send k (format_deal deal) with
    | some mid => simp [opIsDel, opKey]
    | none => simp [opIsDel, opKey]
  | some mid =>
    by_cases hskip : lookupKey st.lastText k = some (format_deal deal)
    · simp [hskip]
    · by_cases hedit : sink.edit mid (format_deal deal) = true
      · simp [hskip, hedit, opIsDel, opKey]
      · simp [hskip, hedit, opIsDel, opKey]

theorem processStep_preserve (sink : Sink) (st : SubState) (k : String) (deal : Deal)
    (k' : String) (hne : ¬k' = k) :
    lookupKey (processStep sink st k deal).1.messages k' = lookupKey st.messages k' ∧
    lookupKey (processStep sink st k deal).1.lastData k' = lookupKey st.lastData k' ∧
    lookupKey (processStep sink st k deal).1.lastText k' = lookupKey st.lastText k' := by
  simp only [processStep]
  cases lookupKey st.messages k with
  | none =>
    cases sink.send k (format_deal deal) with
    | some mid => simp [lookupKey_dictInsert, hne]
    | none => simp
  | some mid =>
    by_cases hskip : lookupKey st.lastText k = some (format_deal deal)
    · simp [hskip]
    · by_cases hedit : sink.edit mid (format_deal deal) = true
      · simp [hskip, hedit, lookupKey_dictInsert, hne]
      · simp [hskip, hedit, lookupKey_eraseKey, hne]

theorem processStep_skip (sink : Sink) (st : SubState) (k : String) (deal : Deal)
    (h1 : (lookupKey st.messages k).isSome = true)
    (h2 : lookupKey st.lastText k = some (format_deal deal)) :
    processStep sink st k deal = (st, []) := by
  simp only [processStep]
  cases hmsg : lookupKey st.messages k with
  | none => rw [hmsg] at h1; simp at h1
  | some mid => simp [h2]

theorem processStep_create_fail (sink : Sink) (st : SubState) (k : String) (deal : Deal)
    (h1 : lookupKey st.messages k = none)
    (hs : sink.send k (format_deal deal) = none) :
    processStep sink st k deal = (st, [DisplayOp.create k (format_deal deal)]) := by
  simp only [processStep]
  rw [h1, hs]

theorem processStep_update_fail (sink : Sink) (st : SubState) (k : String) (deal : Deal)
    (mid : Nat) (h1 : lookupKey st.messages k = some mid)
    (h2 : ¬lookupKey st.lastText k = some (format_deal deal))
    (he : sink.edit mid (format_deal deal) = false) :
    processStep sink st k deal =
      (⟨eraseKey st.messages k, eraseKey st.lastData k, eraseKey st.lastText k⟩,
        [DisplayOp.update k mid (format_deal deal)]) := by
  simp only [processStep]
  rw [h1]
  simp [h2, he]

theorem processStep_create_any (sink : Sink) (st : SubState) (k : String) (deal : Deal)
    (h1 : lookupKey st.messages k = none) :
    DisplayOp.create k (format_deal deal) ∈ (processStep sink st k deal).2 := by
  simp only [processStep]
  rw [h1]
  cases sink.send k (format_deal deal) with
  | some mid => simp
  | none => simp

theorem processStep_success_messages (sink : Sink) (st : SubState) (k : String)
    (deal : Deal) (hsend : ∀ kk tt, (sink.send kk tt).isSome = true)
    (hedit : ∀ m tt, sink.edit m tt = true) (k' : String) :
    (lookupKey (processStep sink st k deal).1.messages k').isSome = true ↔
      (k' = k ∨ (lookupKey st.messages k').isSome = true) := by
  simp only [processStep]
  cases hmsg : lookupKey st.messages k with
  | none =>
    cases hs : sink.send k (format_deal deal) with
    | none =>
      have hcontra := hsend k (format_deal deal)
      rw [hs] at hcontra
      simp at hcontra
    | some mid =>
      by_cases hk : k' = k
      · subst hk
        simp [lookupKey_dictInsert]
      · simp [lookupKey_dictInsert, hk]
  | some mid =>
    by_cases hskip : lookupKey st.lastText k = some (format_deal deal)
    · by_cases hk : k' = k
      · subst hk
        simp [hskip, hmsg]
      · simp [hskip, hk]
    · have he := hedit mid (format_deal deal)
      by_cases hk : k' = k
      · subst hk
        simp [hskip, he, hmsg]
      · simp [hskip, he, hk]

theorem processStep_success_lastText (sink : Sink) (st : SubState) (k : String)
    (deal : Deal) (hsend : ∀ kk tt, (sink.send kk tt).isSome = true)
    (hedit : ∀ m tt, sink.edit m tt = true) :
    lookupKey (processStep sink st k deal).1.lastText k = some (format_deal deal) := by
  simp only [processStep]
  cases hmsg : lookupKey st.messages k with
  | none =>
    cases hs : sink.send k (format_deal deal) with
    | none =>
      have hcontra := hsend k (format_deal deal)
      rw [hs] at hcontra
      simp at hcontra
    | some mid => simp [lookupKey_dictInsert]
  | some mid =>
    by_cases hskip : lookupKey st.lastText k = some (format_deal deal)
    · simp [hskip]
    · have he := hedit mid (format_deal deal)
      simp [hskip, he, lookupKey_dictInsert]

/-! ### `processLoop` lemmas -/

theorem processLoop_cons (sink : Sink) (st : SubState) (k : String) (deal : Deal)
    (rest : List (String × Deal)) :
    processLoop sink st ((k, deal) :: rest) =
      ((processLoop sink (processStep sink st k deal).1 rest).1,
        (processStep sink st k deal).2 ++
          (processLoop sink (processStep sink st k deal).1 rest).2) := rfl

theorem mem_cons_key_eq {α : Type} {k : String} {d d1 : α} {rest : List (String × α)}
    (hnd : (((k, d1) :: rest).map Prod.fst).Nodup) (hmem : (k, d) ∈ (k, d1) :: rest) :
    d = d1 := by
  rcases List.mem_cons.mp hmem with h | h
  · exact congrArg Prod.snd h
  · exfalso
    have hk : k ∈ rest.map Prod.fst := List.mem_map.mpr ⟨(k, d), h, rfl⟩
    have := (List.nodup_cons.mp hnd).1
    exact this hk

theorem processLoop_ops (sink : Sink) (st : SubState) (cur : List (String × Deal)) :
    ∀ op ∈ (processLoop sink st cur).2,
      opIsDel op = false ∧ opKey op ∈ cur.map Prod.fst := by
  induction cur generalizing st with
  | nil => simp [processLoop]
  | cons p rest ih =>
    obtain ⟨k, deal⟩ := p
    rw [processLoop_cons]
    intro op hop
    rcases List.mem_append.mp hop with h | h
    · obtain ⟨ha, hb⟩ := processStep_ops sink st k deal op h
      exact ⟨ha, by simp [hb]⟩
    · obtain ⟨ha, hb⟩ := ih _ op h
      exact ⟨ha, by simp [hb]⟩

theorem processLoop_preserve (sink : Sink) (st : SubState) (cur : List (String × Deal))
    (k : String) (h : k ∉ cur.map Prod.fst) :
    lookupKey (processLoop sink st cur).1.messages k = lookupKey st.messages k ∧
    lookupKey (processLoop sink st cur).1.lastData k = lookupKey st.lastData k ∧
    lookupKey (processLoop sink st cur).1.lastText k = lookupKey st.lastText k := by
  induction cur generalizing st with
  | nil => simp [processLoop]
  | cons p rest ih =>
    obtain ⟨k1, deal⟩ := p
    have hne : ¬k = k1 := by
      intro he
      exact h (by simp [he])
    have hrest : k ∉ rest.map Prod.fst := by
      intro hm
      exact h (by simp [hm])
    rw [processLoop_cons]
    obtain ⟨s1, s2, s3⟩ := processStep_preserve sink st k1 deal k hne
    obtain ⟨l1, l2, l3⟩ := ih (processStep sink st k1 deal).1 hrest
    exact ⟨l1.trans s1, l2.trans s2, l3.trans s3⟩

theorem processLoop_skip_all (sink : Sink) (st : SubState) (cur : List (String × Deal))
    (h : ∀ p ∈ cur, (lookupKey st.messages p.1).isSome = true ∧
      lookupKey st.lastText p.1 = some (format_deal p.2)) :
    processLoop sink st cur = (st, []) := by
  induction cur with
  | nil => rfl
  | cons p rest ih =>
    obtain ⟨k, deal⟩ := p
    obtain ⟨h1, h2⟩ := h (k, deal) (List.mem_cons_self _ _)
    rw [processLoop_cons, processStep_skip sink st k deal h1 h2]
    rw [ih fun q hq => h q (List.mem_cons_of_mem _ hq)]
    rfl

theorem processLoop_noop_key (sink : Sink) (st : SubState) (cur : List (String × Deal))
    (k : String) (d : Deal) (hnd : (cur.map Prod.fst).Nodup) (hmem : (k, d) ∈ cur)
    (h1 : (lookupKey st.messages k).isSome = true)
    (h2 : lookupKey st.lastText k = some (format_deal d)) :
    ∀ op ∈ (processLoop sink st cur).2, ¬opKey op = k := by
  induction cur generalizing st with
  | nil => simp [processLoop]
  | cons p rest ih =>
    obtain ⟨k1, d1⟩ := p
    by_cases hk : k1 = k
    · subst hk
      have hd : d = d1 := mem_cons_key_eq hnd hmem
      subst hd
      rw [processLoop_cons, processStep_skip sink st k1 d h1 h2]
      intro op hop
      simp only [List.nil_append] at hop
      obtain ⟨-, hb⟩ := processLoop_ops sink st rest op hop
      intro he
      have hk1 : k1 ∈ rest.map Prod.fst := by rw [← he]; exact hb
      have := (List.nodup_cons.mp hnd).1
      exact this hk1
    · have hmem' : (k, d) ∈ rest := by
        rcases List.mem_cons.mp hmem with h | h
        · exact absurd (congrArg Prod.fst h).symm hk
        · exact h
      have hne : ¬k = k1 := fun he => hk he.symm
      obtain ⟨s1, -, s3⟩ := processStep_preserve sink st k1 d1 k hne
      rw [processLoop_cons]
      intro op hop
      rcases List.mem_append.mp hop with h | h
      · obtain ⟨-, hb⟩ := processStep_ops sink st k1 d1 op h
        rw [hb]
        exact fun he => hk he
      · exact ih (processStep sink st k1 d1).1 (List.Nodup.of_cons hnd) hmem'
          (by rw [s1]; exact h1) (by rw [s3]; exact h2) op h

theorem processLoop_success_messages (sink : Sink) (st : SubState)
    (cur : List (String × Deal)) (hsend : ∀ kk tt, (sink.send kk tt).isSome = true)
    (hedit : ∀ m tt, sink.edit m tt = true) (k : String) :
    (lookupKey (processLoop sink st cur).1.messages k).isSome = true ↔
      ((lookupKey st.messages k).isSome = true ∨ k ∈ cur.map Prod.fst) := by
  induction cur generalizing st with
  | nil => simp [processLoop]
  | cons p rest ih =>
    obtain ⟨k1, deal⟩ := p
    rw [processLoop_cons]
    rw [ih (processStep sink st k1 deal).1]
    rw [processStep_success_messages sink st k1 deal hsend hedit k]
    simp only [List.map_cons, List.mem_cons]
    tauto

theorem processLoop_success_lastText (sink : Sink) (st : SubState)
    (cur : List (String × Deal)) (hsend : ∀ kk tt, (sink.send kk tt).isSome = true)
    (hedit : ∀ m tt, sink.edit m tt = true) (k : String) (d : Deal)
    (hnd : (cur.map Prod.fst).Nodup) (hmem : (k, d) ∈ cur) :
    lookupKey (processLoop sink st cur).1.lastText k = some (format_deal d) := by
  induction cur generalizing st with
  | nil => simp at hmem
  | cons p rest ih =>
    obtain ⟨k1, d1⟩ := p
    by_cases hk : k1 = k
    · subst hk
      have hd : d = d1 := mem_cons_key_eq hnd hmem
      subst hd
      rw [processLoop_cons]
      have hstep := processStep_success_lastText sink st k1 d hsend hedit
      have hrest : k1 ∉ rest.map Prod.fst :=
        (List.nodup_cons.mp hnd).1
      obtain ⟨-, -, l3⟩ :=
        processLoop_preserve sink (processStep sink st k1 d).1 rest k1 hrest
      rw [l3, hstep]
    · have hmem' : (k, d) ∈ rest := by
        rcases List.mem_cons.mp hmem with h | h
        · exact absurd (congrArg Prod.fst h).symm hk
        · exact h
      rw [processLoop_cons]
      exact ih (processStep sink st k1 d1).1 (List.Nodup.of_cons hnd) hmem'

theorem processLoop_create_fail (sink : Sink) (st : SubState)
    (cur : List (String × Deal)) (k : String) (d : Deal)
    (hnd : (cur.map Prod.fst).Nodup) (hmem : (k, d) ∈ cur)
    (h1 : lookupKey st.messages k = none)
    (hs : sink.send k (format_deal d) = none) :
    lookupKey (processLoop sink st cur).1.messages k = none := by
  induction cur generalizing st with
  | nil => simp at hmem
  | cons p rest ih =>
    obtain ⟨k1, d1⟩ := p
    by_cases hk : k1 = k
    · subst hk
      have hd : d = d1 := mem_cons_key_eq hnd hmem
      subst hd
      rw [processLoop_cons, processStep_create_fail sink st k1 d h1 hs]
      have hrest : k1 ∉ rest.map Prod.fst :=
        (List.nodup_cons.mp hnd).1
      obtain ⟨l1, -, -⟩ := processLoop_preserve sink st rest k1 hrest
      rw [l1, h1]
    · have hmem' : (k, d) ∈ rest := by
        rcases List.mem_cons.mp hmem with h | h
        · exact absurd (congrArg Prod.fst h).symm hk
        · exact h
      have hne : ¬k = k1 := fun he => hk he.symm
      obtain ⟨s1, -, -⟩ := processStep_preserve sink st k1 d1 k hne
      rw [processLoop_cons]
      exact ih (processStep sink st k1 d1).1 (List.Nodup.of_cons hnd) hmem'
        (by rw [s1]; exact h1)

theorem processLoop_update_fail (sink : Sink) (st : SubState)
    (cur : List (String × Deal)) (k : String) (d : Deal) (mid : Nat)
    (hnd : (cur.map Prod.fst).Nodup) (hmem : (k, d) ∈ cur)
    (h1 : lookupKey st.messages k = some mid)
    (h2 : ¬lookupKey st.lastText k = some (format_deal d))
    (he : sink.edit mid (format_deal d) = false) :
    lookupKey (processLoop sink st cur).1.messages k = none ∧
    lookupKey (processLoop sink st cur).1.lastData k = none ∧
    lookupKey (processLoop sink st cur).1.lastText k = none := by
  induction cur generalizing st with
  | nil => simp at hmem
  | cons p rest ih =>
    obtain ⟨k1, d1⟩ := p
    by_cases hk : k1 = k
    · subst hk
      have hd : d = d1 := mem_cons_key_eq hnd hmem
      subst hd
      rw [processLoop_cons, processStep_update_fail sink st k1 d mid h1 h2 he]
      have hrest : k1 ∉ rest.map Prod.fst :=
        (List.nodup_cons.mp hnd).1
      obtain ⟨l1, l2, l3⟩ :=
        processLoop_preserve sink
          ⟨eraseKey st.messages k1, eraseKey st.lastData k1, eraseKey st.lastText k1⟩
          rest k1 hrest
      refine ⟨?_, ?_, ?_⟩
      · rw [l1]
        simp [lookupKey_eraseKey]
      · rw [l2]
        simp [lookupKey_eraseKey]
      · rw [l3]
        simp [lookupKey_eraseKey]
    · have hmem' : (k, d) ∈ rest := by
        rcases List.mem_cons.mp hmem with h | h
        · exact absurd (congrArg Prod.fst h).symm hk
        · exact h
      have hne : ¬k = k1 := fun hh => hk hh.symm
      obtain ⟨s1, -, s3⟩ := processStep_preserve sink st k1 d1 k hne
      rw [processLoop_cons]
      exact ih (processStep sink st k1 d1).1 (List.Nodup.of_cons hnd) hmem'
        (by rw [s1]; exact h1) (by rw [s3]; exact h2)

theorem processLoop_emits_create (sink : Sink) (st : SubState)
    (cur : List (String × Deal)) (k : String) (d : Deal)
    (hnd : (cur.map Prod.fst).Nodup) (hmem : (k, d) ∈ cur)
    (h1 : lookupKey st.messages k = none) :
    DisplayOp.create k (format_deal d) ∈ (processLoop sink st cur).2 := by
  induction cur generalizing st with
  | nil => simp at hmem
  | cons p rest ih =>
    obtain ⟨k1, d1⟩ := p
    rw [processLoop_cons]
    by_cases hk : k1 = k
    · subst hk
      have hd : d = d1 := mem_cons_key_eq hnd hmem
      subst hd
      exact List.mem_append.mpr (Or.inl (processStep_create_any sink st k1 d h1))
    · have hmem' : (k, d) ∈ rest := by
        rcases List.mem_cons.mp hmem with h | h
        · exact absurd (congrArg Prod.fst h).symm hk
        · exact h
      have hne : ¬k = k1 := fun hh => hk hh.symm
      obtain ⟨s1, -, -⟩ := processStep_preserve sink st k1 d1 k hne
      exact List.mem_append.mpr
        (Or.inr (ih (processStep sink st k1 d1).1 (List.Nodup.of_cons hnd) hmem'
          (by rw [s1]; exact h1)))

theorem processStep_ops_shape (sink : Sink) (st : SubState) (k : String) (deal : Deal) :
    (processStep sink st k deal).2 = [] ∨
    ∃ op, (processStep sink st k deal).2 = [op] ∧ opKey op = k := by
  simp only [processStep]
  cases lookupKey st.messages k with
  | none =>
    cases sink.send k (format_deal deal) with
    | some mid => exact Or.inr ⟨DisplayOp.create k (format_deal deal), rfl, rfl⟩
    | none => exact Or.inr ⟨DisplayOp.create k (format_deal deal), rfl, rfl⟩
  | some mid =>
    by_cases hskip : lookupKey st.lastText k = some (format_deal deal)
    · exact Or.inl (by simp [hskip])
    · by_cases hedit : sink.edit mid (format_deal deal) = true
      · exact Or.inr
          ⟨DisplayOp.update k mid (format_deal deal), by simp [hskip, hedit], rfl⟩
      · exact Or.inr
          ⟨DisplayOp.update k mid (format_deal deal), by simp [hskip, hedit], rfl⟩

theorem processLoop_keys_sublist (sink : Sink) (st : SubState)
    (cur : List (String × Deal)) :
    List.Sublist ((processLoop sink st cur).2.map opKey) (cur.map Prod.fst) := by
  induction cur generalizing st with
  | nil => simp [processLoop]
  | cons p rest ih =>
    obtain ⟨k, deal⟩ := p
    rw [processLoop_cons]
    simp only [List.map_append, List.map_cons]
    rcases processStep_ops_shape sink st k deal with h | ⟨op, h, hk⟩
    · rw [h]
      simp only [List.map_nil, List.nil_append]
      exact (ih _).cons k
    · rw [h]
      simp only [List.map_cons, List.map_nil, List.singleton_append]
      rw [hk]
      exact (ih _).cons₂ k

/-! ### `filter_deals` lemmas -/

theorem dealMatches_iff (price_min price_max diff_max : ℚ) (excluded : List String)
    (d : Deal) :
    dealMatches price_min price_max diff_max excluded d = true ↔
      d.slug.getD "" ∉ excluded ∧
      (∃ p, d.price = some p ∧ price_min ≤ p ∧ p ≤ price_max) ∧
      (∃ q, d.difference_percent = some q ∧ q ≤ diff_max) := by
  unfold dealMatches
  by_cases hex : d.slug.getD "" ∈ excluded
  · simp [hex]
  · simp only [hex, if_false, not_false_iff, true_and]
    cases hp : d.price with
    | none => simp
    | some p =>
      cases hq : d.difference_percent with
      | none => simp
      | some q =>
        by_cases h1 : p < price_min ∨ p > price_max
        · rcases h1 with h1 | h1
          · simp [h1, not_le.mpr h1]
          · simp [h1, not_le.mpr h1]
        · push_neg at h1
          by_cases h2 : q > diff_max
          · simp [not_lt.mpr h1.1, not_lt.mpr h1.2, h2, not_le.mpr h2]
          · simp [not_lt.mpr h1.1, not_lt.mpr h1.2, h2, h1.1, h1.2, not_lt.mp h2]

theorem mem_filter_deals (deals : List Deal) (price_min price_max diff_max : ℚ)
    (excluded : List String) (d : Deal) :
    d ∈ filter_deals deals price_min price_max diff_max excluded ↔
      d ∈ deals ∧ dealMatches price_min price_max diff_max excluded d = true := by
  rw [filter_deals, List.mem_mergeSort, List.mem_filter]

theorem dealLE_trans : ∀ a b c : Deal,
    decide (sortKey a ≤ sortKey b) → decide (sortKey b ≤ sortKey c) →
    decide (sortKey a ≤ sortKey c) := by
  intro a b c hab hbc
  exact decide_eq_true (le_trans (of_decide_eq_true hab) (of_decide_eq_true hbc))

theorem dealLE_total : ∀ a b : Deal,
    decide (sortKey a ≤ sortKey b) || decide (sortKey b ≤ sortKey a) := by
  intro a b
  rcases le_total (sortKey a) (sortKey b) with h | h <;> simp [h]

/-! ### `processUser` lemmas -/

theorem processUser_eq (sink : Sink) (deals : List Deal) (st : SubState) :
    processUser sink deals st =
      ((processLoop sink
          (deleteLoop ((buildCurrent deals).map Prod.fst) st.messages st).1
          (buildCurrent deals)).1,
        (deleteLoop ((buildCurrent deals).map Prod.fst) st.messages st).2 ++
          (processLoop sink
            (deleteLoop ((buildCurrent deals).map Prod.fst) st.messages st).1
            (buildCurrent deals)).2) := rfl

theorem processUser_success_messages_iff (sink : Sink) (deals : List Deal)
    (st : SubState) (hsend : ∀ kk tt, (sink.send kk tt).isSome = true)
    (hedit : ∀ m tt, sink.edit m tt = true) (k : String) :
    (lookupKey (processUser sink deals st).1.messages k).isSome = true ↔
      k ∈ (buildCurrent deals).map Prod.fst := by
  rw [processUser_eq]
  rw [processLoop_success_messages _ _ _ hsend hedit]
  obtain ⟨l1, -, -⟩ :=
    deleteLoop_lookup ((buildCurrent deals).map Prod.fst) st.messages st k
  rw [l1]
  by_cases hcur : k ∈ (buildCurrent deals).map Prod.fst
  · simp [hcur]
  · simp only [hcur, or_false, iff_false]
    by_cases hmsg : k ∈ st.messages.map Prod.fst
    · simp [hcur, hmsg]
    · simp [hcur, hmsg, (lookupKey_eq_none st.messages k).mpr hmsg]

theorem processUser_success_lastText (sink : Sink) (deals : List Deal)
    (st : SubState) (hsend : ∀ kk tt, (sink.send kk tt).isSome = true)
    (hedit : ∀ m tt, sink.edit m tt = true) (k : String) (d : Deal)
    (hmem : (k, d) ∈ buildCurrent deals) :
    lookupKey (processUser sink deals st).1.lastText k = some (format_deal d) := by
  rw [processUser_eq]
  exact processLoop_success_lastText sink _ _ hsend hedit k d
    (buildCurrent_keys_nodup deals) hmem

theorem processUser_second_run_empty (sink : Sink) (deals : List Deal)
    (st : SubState) (hsend : ∀ kk tt, (sink.send kk tt).isSome = true)
    (hedit : ∀ m tt, sink.edit m tt = true) :
    (processUser sink deals ((processUser sink deals st).1)).2 = [] := by
  have hkeys := processUser_success_messages_iff sink deals st hsend hedit
  have htext := processUser_success_lastText sink deals st hsend hedit
  set st1 := (processUser sink deals st).1 with hst1
  have hdel : deleteLoop ((buildCurrent deals).map Prod.fst) st1.messages st1 =
      (st1, []) := by
    apply deleteLoop_all_current
    intro p hp
    have hm : p.1 ∈ st1.messages.map Prod.fst := List.mem_map.mpr ⟨p, hp, rfl⟩
    have : (lookupKey st1.messages p.1).isSome = true := by
      rw [← hasKey_iff_mem] at hm
      exact hm
    exact (hkeys p.1).mp this
  have hloop : processLoop sink st1 (buildCurrent deals) = (st1, []) := by
    apply processLoop_skip_all
    intro p hp
    constructor
    · rw [hkeys p.1]
      exact List.mem_map.mpr ⟨p, hp, rfl⟩
    · exact htext p.1 p.2 (by simpa using hp)
  rw [processUser_eq, hdel]
  simp only [hdel, hloop]
  rfl

theorem processUser_noop_key (sink : Sink) (deals : List Deal) (st : SubState)
    (k : String) (d : Deal) (hcur : lookupKey (buildCurrent deals) k = some d)
    (h1 : (lookupKey st.messages k).isSome = true)
    (h2 : lookupKey st.lastText k = some (format_deal d)) :
    ∀ op ∈ (processUser sink deals st).2, ¬opKey op = k := by
  have hkcur : k ∈ (buildCurrent deals).map Prod.fst := by
    rw [← hasKey_iff_mem]
    simp [hasKey, hcur]
  obtain ⟨l1, -, l3⟩ :=
    deleteLoop_lookup ((buildCurrent deals).map Prod.fst) st.messages st k
  rw [processUser_eq]
  intro op hop
  rcases List.mem_append.mp hop with h | h
  · obtain ⟨-, hnk, -⟩ := deleteLoop_ops _ _ _ op h
    intro he
    rw [he] at hnk
    exact hnk hkcur
  · refine processLoop_noop_key sink _ _ k d (buildCurrent_keys_nodup deals)
      (lookupKey_mem hcur) ?_ ?_ op h
    · rw [l1, if_neg (by simp [hkcur])]
      exact h1
    · rw [l3, if_neg (by simp [hkcur])]
      exact h2

theorem processUser_create_fail (sink : Sink) (deals : List Deal) (st : SubState)
    (k : String) (d : Deal) (hcur : lookupKey (buildCurrent deals) k = some d)
    (h1 : lookupKey st.messages k = none)
    (hs : sink.send k (format_deal d) = none) :
    lookupKey (processUser sink deals st).1.messages k = none := by
  rw [processUser_eq]
  refine processLoop_create_fail sink _ _ k d (buildCurrent_keys_nodup deals)
    (lookupKey_mem hcur) ?_ hs
  obtain ⟨l1, -, -⟩ :=
    deleteLoop_lookup ((buildCurrent deals).map Prod.fst) st.messages st k
  rw [l1]
  split
  · rfl
  · exact h1

theorem processUser_update_fail (sink : Sink) (deals : List Deal) (st : SubState)
    (k : String) (d : Deal) (mid : Nat)
    (hcur : lookupKey (buildCurrent deals) k = some d)
    (h1 : lookupKey st.messages k = some mid)
    (h2 : ¬lookupKey st.lastText k = some (format_deal d))
    (he : sink.edit mid (format_deal d) = false) :
    lookupKey (processUser sink deals st).1.messages k = none ∧
    lookupKey (processUser sink deals st).1.lastText k = none := by
  have hkcur : k ∈ (buildCurrent deals).map Prod.fst := by
    rw [← hasKey_iff_mem]
    simp [hasKey, hcur]
  obtain ⟨l1, -, l3⟩ :=
    deleteLoop_lookup ((buildCurrent deals).map Prod.fst) st.messages st k
  rw [processUser_eq]
  obtain ⟨r1, -, r3⟩ :=
    processLoop_update_fail sink _ _ k d mid (buildCurrent_keys_nodup deals)
      (lookupKey_mem hcur)
      (by rw [l1, if_neg (by simp [hkcur])]; exact h1)
      (by rw [l3, if_neg (by simp [hkcur])]; exact h2) he
  exact ⟨r1, r3⟩

theorem processUser_gone_removed (sink : Sink) (deals : List Deal) (st : SubState)
    (k : String) (hcur : lookupKey (buildCurrent deals) k = none)
    (hmsg : k ∈ st.messages.map Prod.fst) :
    lookupKey (processUser sink deals st).1.messages k = none ∧
    lookupKey (processUser sink deals st).1.lastText k = none := by
  have hkcur : k ∉ (buildCurrent deals).map Prod.fst := by
    rw [← lookupKey_eq_none]
    exact hcur
  obtain ⟨l1, -, l3⟩ :=
    deleteLoop_lookup ((buildCurrent deals).map Prod.fst) st.messages st k
  rw [processUser_eq]
  obtain ⟨p1, -, p3⟩ :=
    processLoop_preserve sink
      (deleteLoop ((buildCurrent deals).map Prod.fst) st.messages st).1
      (buildCurrent deals) k hkcur
  refine ⟨?_, ?_⟩
  · rw [p1, l1, if_pos ⟨hkcur, hmsg⟩]
  · rw [p3, l3, if_pos ⟨hkcur, hmsg⟩]

theorem processUser_emits_create (sink : Sink) (deals : List Deal) (st : SubState)
    (k : String) (d : Deal) (hcur : lookupKey (buildCurrent deals) k = some d)
    (h1 : lookupKey st.messages k = none) :
    DisplayOp.create k (format_deal d) ∈ (processUser sink deals st).2 := by
  rw [processUser_eq]
  refine List.mem_append.mpr (Or.inr ?_)
  refine processLoop_emits_create sink _ _ k d (buildCurrent_keys_nodup deals)
    (lookupKey_mem hcur) ?_
  obtain ⟨l1, -, -⟩ :=
    deleteLoop_lookup ((buildCurrent deals).map Prod.fst) st.messages st k
  rw [l1]
  split
  · rfl
  · exact h1

/-! ### Scheduler lemmas -/

theorem foldl_max_init : ∀ (l : List Nat) (a : Nat), a ≤ l.foldl max a := by
  intro l
  induction l with
  | nil => intro a; simp
  | cons b t ih => intro a; exact le_trans (le_max_left a b) (ih (max a b))

theorem mem_le_foldl_max : ∀ (l : List Nat) (a x : Nat), x ∈ l → x ≤ l.foldl max a := by
  intro l
  induction l with
  | nil => intro a x hx; simp at hx
  | cons b t ih =>
    intro a x hx
    rcases List.mem_cons.mp hx with h | h
    · subst h
      exact le_trans (le_max_right a x) (foldl_max_init t (max a x))
    · exact ih (max a b) x h

/-! ### `extract_pricing` lemmas -/

theorem eth_floor_requires_eth (item : RawItem) :
    (extract_pricing item).eth_floor.isSome = true →
      floorNativeSymbol item = some "ETH" := by
  simp only [extract_pricing, floorNativeSymbol]
  cases hfp : item.floorPrice with
  | none => simp
  | some fp =>
    cases hpp : fp.pricePerItem with
    | none => simp [hpp]
    | some ppi =>
      cases hn : ppi.native with
      | none => simp [hpp, hn]
      | some native =>
        by_cases hs : native.symbol = some "ETH"
        · simp [hpp, hn, hs]
        · simp [hpp, hn, hs]

theorem eth_offer_requires_eth (item : RawItem) :
    (extract_pricing item).eth_offer.isSome = true →
      offerNativeSymbol item = some "ETH" := by
  simp only [extract_pricing, offerNativeSymbol]
  cases hfp : item.topOffer with
  | none => simp
  | some fp =>
    cases hpp : fp.pricePerItem with
    | none => simp [hpp]
    | some ppi =>
      cases hn : ppi.native with
      | none => simp [hpp, hn]
      | some native =>
        by_cases hs : native.symbol = some "ETH"
        · simp [hpp, hn, hs]
        · simp [hpp, hn, hs]

/-! ### Evaluation lemmas for the fixtures -/

theorem filter_single_eval : filter_deals [dealA] 0 10 10 [] = [dealA] := by
  rw [filter_deals]
  have hA : dealMatches 0 10 10 [] dealA = true := by decide
  rw [show [dealA].filter (dealMatches 0 10 10 []) = [dealA] by
    simp [List.filter, hA]]
  exact List.mergeSort_singleton dealA

theorem filter_pair_eval : filter_deals [dealA, dealB] 0 10 10 [] = [dealA, dealB] := by
  rw [filter_deals]
  have hA : dealMatches 0 10 10 [] dealA = true := by decide
  have hB : dealMatches 0 10 10 [] dealB = true := by decide
  rw [show [dealA, dealB].filter (dealMatches 0 10 10 []) = [dealA, dealB] by
    simp [List.filter, hA, hB]]
  apply List.mergeSort_of_sorted
  refine List.pairwise_cons.mpr ⟨?_, List.pairwise_singleton _ _⟩
  intro b hb
  rw [List.mem_singleton.mp hb]
  decide

theorem filter_tie_eval :
    filter_deals [dealTieB, dealTieA] 0 10 10 [] = [dealTieB, dealTieA] := by
  rw [filter_deals]
  have hA : dealMatches 0 10 10 [] dealTieA = true := by decide
  have hB : dealMatches 0 10 10 [] dealTieB = true := by decide
  rw [show [dealTieB, dealTieA].filter (dealMatches 0 10 10 []) = [dealTieB, dealTieA] by
    simp [List.filter, hA, hB]]
  apply List.mergeSort_of_sorted
  refine List.pairwise_cons.mpr ⟨?_, List.pairwise_singleton _ _⟩
  intro b hb
  rw [List.mem_singleton.mp hb]
  decide

/-! ### Claim theorems -/

/-- C1: a deal is in the output of `filter_deals` iff it is in the input,
its slug (with `None` read as `""`) is not excluded, its USD price is
defined and lies in `[price_min, price_max]` inclusively, and its spread is
defined and at most `diff_max`; in particular a deal with undefined price
or spread is never in the output (fail-closed). -/
theorem filter_deals_membership (deals : List Deal) (price_min price_max diff_max : ℚ)
    (excluded : List String) (d : Deal) :
    (d ∈ filter_deals deals price_min price_max diff_max excluded ↔
      d ∈ deals ∧ d.slug.getD "" ∉ excluded ∧
      (∃ p, d.price = some p ∧ price_min ≤ p ∧ p ≤ price_max) ∧
      (∃ q, d.difference_percent = some q ∧ q ≤ diff_max)) ∧
    (d.price = none ∨ d.difference_percent = none →
      d ∉ filter_deals deals price_min price_max diff_max excluded) := by
  have hiff := (mem_filter_deals deals price_min price_max diff_max excluded d).trans
    (and_congr_right fun _ => dealMatches_iff price_min price_max diff_max excluded d)
  refine ⟨hiff, ?_⟩
  intro hnone hmem
  obtain ⟨-, -, ⟨p, hp, -⟩, ⟨q, hq, -⟩⟩ := hiff.mp hmem
  rcases hnone with h | h
  · rw [h] at hp
    exact Option.noConfusion hp
  · rw [h] at hq
    exact Option.noConfusion hq

/-- C1 witness: a deal with an undefined USD price never appears. -/
theorem filter_deals_membership_witness :
    dealNoPrice ∉ filter_deals [dealNoPrice] 0 100 5 [] :=
  (filter_deals_membership [dealNoPrice] 0 100 5 [] dealNoPrice).2 (Or.inl rfl)

/-- C2: a matched identity whose rendered text equals the stored text gets
no operation, and a second filter-then-reconcile run over the same snapshot
and configuration emits zero operations when the sink succeeded
throughout. -/
theorem reconcile_unchanged_noop (sink : Sink) (st : SubState) (raws : List Deal)
    (price_min price_max diff_max : ℚ) (excluded : List String) :
    (∀ k d mid,
      lookupKey (buildCurrent (filter_deals raws price_min price_max diff_max excluded))
          k = some d →
      lookupKey st.messages k = some mid →
      lookupKey st.lastText k = some (format_deal d) →
      ∀ op ∈ (processUser sink
        (filter_deals raws price_min price_max diff_max excluded) st).2,
        ¬opKey op = k) ∧
    ((∀ kk tt, (sink.send kk tt).isSome = true) → (∀ m tt, sink.edit m tt = true) →
      (processUser sink (filter_deals raws price_min price_max diff_max excluded)
        ((processUser sink (filter_deals raws price_min price_max diff_max excluded)
          st).1)).2 = []) := by
  constructor
  · intro k d mid hcur h1 h2
    exact processUser_noop_key sink _ st k d hcur (by simp [h1]) h2
  · intro hsend hedit
    exact processUser_second_run_empty sink _ st hsend hedit

/-- C2 witness at a concrete deal, state and all-success sink. -/
theorem reconcile_unchanged_noop_witness :
    (∀ op ∈ (processUser sinkOk (filter_deals [dealA] 0 10 10 []) stGood).2,
      ¬opKey op = "a") ∧
    (processUser sinkOk (filter_deals [dealA] 0 10 10 [])
      ((processUser sinkOk (filter_deals [dealA] 0 10 10 []) stEmpty).1)).2 = [] := by
  constructor
  · exact (reconcile_unchanged_noop sinkOk stGood [dealA] 0 10 10 []).1 "a" dealA 5
      (by rw [filter_single_eval]; decide) (by decide) rfl
  · exact (reconcile_unchanged_noop sinkOk stEmpty [dealA] 0 10 10 []).2
      (fun _ _ => rfl) (fun _ _ => rfl)

/-- C3: a failed send leaves the identity untracked, a failed edit drops it
from the display state, a vanished identity is dropped even when the delete
fails, and an untracked matched identity gets a fresh Create. -/
theorem sink_failure_recovery (sink : Sink) (deals : List Deal) (st : SubState)
    (k : String) (d : Deal) (mid : Nat) :
    (lookupKey (buildCurrent deals) k = some d → lookupKey st.messages k = none →
      sink.send k (format_deal d) = none →
      lookupKey (processUser sink deals st).1.messages k = none) ∧
    (lookupKey (buildCurrent deals) k = some d → lookupKey st.messages k = some mid →
      ¬lookupKey st.lastText k = some (format_deal d) →
      sink.edit mid (format_deal d) = false →
      lookupKey (processUser sink deals st).1.messages k = none ∧
      lookupKey (processUser sink deals st).1.lastText k = none) ∧
    (lookupKey (buildCurrent deals) k = none → k ∈ st.messages.map Prod.fst →
      lookupKey (processUser sink deals st).1.messages k = none ∧
      lookupKey (processUser sink deals st).1.lastText k = none) ∧
    (lookupKey (buildCurrent deals) k = some d → lookupKey st.messages k = none →
      DisplayOp.create k (format_deal d) ∈ (processUser sink deals st).2) :=
  ⟨fun hc h1 hs => processUser_create_fail sink deals st k d hc h1 hs,
   fun hc h1 h2 he => processUser_update_fail sink deals st k d mid hc h1 h2 he,
   fun hc hm => processUser_gone_removed sink deals st k hc hm,
   fun hc h1 => processUser_emits_create sink deals st k d hc h1⟩

/-- C3 witness: concrete failing send, failing edit, vanished identity, and
retried Create. -/
theorem sink_failure_recovery_witness :
    lookupKey (processUser sinkSendFail [dealA] stEmpty).1.messages "a" = none ∧
    (lookupKey (processUser sinkEditFail [dealA] stA).1.messages "a" = none ∧
      lookupKey (processUser sinkEditFail [dealA] stA).1.lastText "a" = none) ∧
    (lookupKey (processUser sinkOk [] stA).1.messages "a" = none ∧
      lookupKey (processUser sinkOk [] stA).1.lastText "a" = none) ∧
    DisplayOp.create "a" (format_deal dealA) ∈ (processUser sinkSendFail [dealA] stEmpty).2 := by
  refine ⟨?_, ?_, ?_, ?_⟩
  · exact (sink_failure_recovery sinkSendFail [dealA] stEmpty "a" dealA 0).1
      (by decide) rfl rfl
  · exact (sink_failure_recovery sinkEditFail [dealA] stA "a" dealA 5).2.1
      (by decide) (by decide) (by decide) rfl
  · exact (sink_failure_recovery sinkOk [] stA "a" dealA 0).2.2.1 rfl (by decide)
  · exact (sink_failure_recovery sinkSendFail [dealA] stEmpty "a" dealA 0).2.2.2
      (by decide) rfl

/-- C4: with an all-success sink, after one reconciliation the tracked keys
are exactly the identities of the matched deals, and each stored rendered
text is the rendering of the current deal under that key. -/
theorem display_state_convergence (sink : Sink) (st : SubState) (raws : List Deal)
    (price_min price_max diff_max : ℚ) (excluded : List String)
    (hsend : ∀ kk tt, (sink.send kk tt).isSome = true)
    (hedit : ∀ m tt, sink.edit m tt = true) :
    (∀ k, (lookupKey (processUser sink
        (filter_deals raws price_min price_max diff_max excluded) st).1.messages
        k).isSome = true ↔
      ∃ d ∈ filter_deals raws price_min price_max diff_max excluded, dealKey d = k) ∧
    (∀ k d,
      lookupKey (buildCurrent (filter_deals raws price_min price_max diff_max excluded))
          k = some d →
      lookupKey (processUser sink
        (filter_deals raws price_min price_max diff_max excluded) st).1.lastText k =
        some (format_deal d)) := by
  constructor
  · intro k
    rw [processUser_success_messages_iff sink _ st hsend hedit k, ← hasKey_iff_mem,
      buildCurrent_hasKey]
  · intro k d hcur
    exact processUser_success_lastText sink _ st hsend hedit k d (lookupKey_mem hcur)

/-- C4 witness at a concrete deal, empty state and all-success sink. -/
theorem display_state_convergence_witness :
    (∀ k, (lookupKey (processUser sinkOk
        (filter_deals [dealA] 0 10 10 []) stEmpty).1.messages k).isSome = true ↔
      ∃ d ∈ filter_deals [dealA] 0 10 10 [], dealKey d = k) ∧
    (∀ k d, lookupKey (buildCurrent (filter_deals [dealA] 0 10 10 [])) k = some d →
      lookupKey (processUser sinkOk
        (filter_deals [dealA] 0 10 10 []) stEmpty).1.lastText k =
        some (format_deal d)) :=
  display_state_convergence sinkOk stEmpty [dealA] 0 10 10 []
    (fun _ _ => rfl) (fun _ _ => rfl)

/-- C5 counterexample: with one tracked-and-changed deal sorting before one
new deal, the emitted operations are Update then Create, so Creates do not
all precede Updates. -/
theorem ops_not_grouped_counterexample :
    filter_deals [dealA, dealB] 0 10 10 [] = [dealA, dealB] ∧
    ¬(((processUser sinkOk [dealA, dealB] stA).2.map opRank).Pairwise
      fun a b => a ≤ b) := by
  refine ⟨filter_pair_eval, ?_⟩
  decide

/-- C5 amended: all Delete operations come first; the Create and Update
operations follow, interleaved in the order of the matched items — their
keys form an ordered subsequence of the `current_deals` key order. -/
theorem ops_deletes_first (sink : Sink) (deals : List Deal) (st : SubState) :
    ∃ dOps rest, (processUser sink deals st).2 = dOps ++ rest ∧
      (∀ op ∈ dOps, opIsDel op = true) ∧ (∀ op ∈ rest, opIsDel op = false) ∧
      List.Sublist (rest.map opKey) ((buildCurrent deals).map Prod.fst) := by
  refine ⟨(deleteLoop ((buildCurrent deals).map Prod.fst) st.messages st).2,
    (processLoop sink (deleteLoop ((buildCurrent deals).map Prod.fst) st.messages st).1
      (buildCurrent deals)).2,
    by rw [processUser_eq], fun op hop => (deleteLoop_ops _ _ _ op hop).1,
    fun op hop => (processLoop_ops _ _ _ op hop).1,
    processLoop_keys_sublist sink _ (buildCurrent deals)⟩

/-- C5 amended witness at a concrete run. -/
theorem ops_deletes_first_witness :
    ∃ dOps rest, (processUser sinkOk [dealA, dealB] stA).2 = dOps ++ rest ∧
      (∀ op ∈ dOps, opIsDel op = true) ∧ (∀ op ∈ rest, opIsDel op = false) ∧
      List.Sublist (rest.map opKey) ((buildCurrent [dealA, dealB]).map Prod.fst) :=
  ops_deletes_first sinkOk [dealA, dealB] stA

/-- C6 counterexample: two deals with equal spreads keep their input order
`"b"` before `"a"`, so ties are not broken by identity. -/
theorem sort_not_identity_tiebreak :
    ¬(filter_deals [dealTieB, dealTieA] 0 10 10 []).Pairwise specTieOrder := by
  rw [filter_tie_eval]
  intro h
  have hrel := (List.pairwise_cons.mp h).1 dealTieA (List.mem_singleton_self _)
  rcases hrel with h1 | h1
  · exact absurd h1 (by decide)
  · refine absurd h1.2 ?_
    show ¬((dealTieB.slug.getD "" : String) ≤ dealTieA.slug.getD "")
    rw [show dealTieB.slug.getD "" = "b" from rfl, show dealTieA.slug.getD "" = "a" from rfl,
      String.le_iff_toList_le]
    decide

/-- C6 amended: the output of `filter_deals` is sorted ascending by spread,
and any two kept deals in input order with non-decreasing spreads — in
particular ties — keep their input order (stable sort). -/
theorem sort_sorted_stable (deals : List Deal) (price_min price_max diff_max : ℚ)
    (excluded : List String) :
    ((filter_deals deals price_min price_max diff_max excluded).Pairwise
      fun a b => sortKey a ≤ sortKey b) ∧
    (∀ a b, List.Sublist [a, b] (deals.filter (dealMatches price_min price_max diff_max excluded)) →
      sortKey a ≤ sortKey b →
      List.Sublist [a, b] (filter_deals deals price_min price_max diff_max excluded)) := by
  constructor
  · have h := List.sorted_mergeSort dealLE_trans dealLE_total
      (deals.filter (dealMatches price_min price_max diff_max excluded))
    exact h.imp fun hab => of_decide_eq_true hab
  · intro a b hsub hle
    exact List.pair_sublist_mergeSort dealLE_trans dealLE_total (decide_eq_true hle) hsub

/-- C6 amended witness: a tied pair stays in input order. -/
theorem sort_sorted_stable_witness :
    ((filter_deals [dealTieB, dealTieA] 0 10 10 []).Pairwise
      fun a b => sortKey a ≤ sortKey b) ∧
    List.Sublist [dealTieB, dealTieA] (filter_deals [dealTieB, dealTieA] 0 10 10 []) := by
  refine ⟨(sort_sorted_stable [dealTieB, dealTieA] 0 10 10 []).1, ?_⟩
  refine (sort_sorted_stable [dealTieB, dealTieA] 0 10 10 []).2 dealTieB dealTieA ?_ ?_
  · rw [show [dealTieB, dealTieA].filter (dealMatches 0 10 10 []) = [dealTieB, dealTieA]
      from by decide]
  · decide

/-- C7: a failed fetch yields the empty snapshot for that cycle only, the
filter output is empty, every previously tracked identity is dropped, and
the only operations attempted are deletes of previously tracked keys. -/
theorem fetch_failure_degrades (msg : String) (sink : Sink) (st : SubState)
    (price_min price_max diff_max : ℚ) (excluded : List String) :
    cycleRaw (Except.error msg) = [] ∧
    filter_deals (cycleRaw (Except.error msg)) price_min price_max diff_max excluded
      = [] ∧
    (∀ k, lookupKey (processUser sink
      (filter_deals (cycleRaw (Except.error msg)) price_min price_max diff_max excluded)
      st).1.messages k = none) ∧
    (∀ op ∈ (processUser sink
      (filter_deals (cycleRaw (Except.error msg)) price_min price_max diff_max excluded)
      st).2, ∃ kk midd, op = DisplayOp.del kk midd ∧ kk ∈ st.messages.map Prod.fst) := by
  have h0 : cycleRaw (Except.error msg) = [] := rfl
  have h1 : filter_deals (cycleRaw (Except.error msg)) price_min price_max diff_max
      excluded = [] := by
    rw [h0]
    simp [filter_deals]
  refine ⟨h0, h1, ?_, ?_⟩
  · intro k
    rw [h1, processUser_eq]
    simp only [processLoop]
    obtain ⟨l1, -, -⟩ :=
      deleteLoop_lookup ((buildCurrent ([] : List Deal)).map Prod.fst) st.messages st k
    rw [l1]
    by_cases hm : k ∈ st.messages.map Prod.fst
    · rw [if_pos ⟨fun hfalse => (List.not_mem_nil k) hfalse, hm⟩]
    · rw [if_neg fun hand => hm hand.2]
      exact (lookupKey_eq_none _ _).mpr hm
  · intro op hop
    rw [h1, processUser_eq] at hop
    simp only [processLoop, List.append_nil] at hop
    obtain ⟨hdel, -, hmem⟩ :=
      deleteLoop_ops ((buildCurrent ([] : List Deal)).map Prod.fst) st.messages st op hop
    cases op with
    | del kk midd => exact ⟨kk, midd, rfl, by simpa [opKey] using hmem⟩
    | create kk tt => simp [opIsDel] at hdel
    | update kk midd tt => simp [opIsDel] at hdel

/-- C7 witness: one tracked identity is dropped after a failed fetch. -/
theorem fetch_failure_degrades_witness :
    lookupKey (processUser sinkOk
      (filter_deals (cycleRaw (Except.error "boom")) 0 10 10 []) stA).1.messages "a"
      = none ∧
    (∃ kk midd, DisplayOp.del "a" 5 = DisplayOp.del kk midd ∧
      kk ∈ stA.messages.map Prod.fst) := by
  constructor
  · exact (fetch_failure_degrades "boom" sinkOk stA 0 10 10 []).2.2.1 "a"
  · refine (fetch_failure_degrades "boom" sinkOk stA 0 10 10 []).2.2.2
      (DisplayOp.del "a" 5) ?_
    rw [show filter_deals (cycleRaw (Except.error "boom")) 0 10 10 [] = []
      from (fetch_failure_degrades "boom" sinkOk stA 0 10 10 []).2.1]
    decide

/-- C8: `calculate_difference` is `((floor - offer) / floor) * 100` when
both are present and the floor is nonzero, and `None` when either is
missing or the floor is zero. -/
theorem calculate_difference_spec (floor_eth offer_eth : Option ℚ) :
    ((floor_eth = none ∨ offer_eth = none ∨ floor_eth = some 0) →
      calculate_difference floor_eth offer_eth = none) ∧
    (∀ fv ov, floor_eth = some fv → offer_eth = some ov → ¬fv = 0 →
      calculate_difference floor_eth offer_eth = some ((fv - ov) / fv * 100)) := by
  constructor
  · rintro (rfl | rfl | rfl)
    · cases offer_eth <;> rfl
    · cases floor_eth <;> rfl
    · cases offer_eth with
      | none => rfl
      | some ov => simp [calculate_difference]
  · rintro fv ov rfl rfl h
    simp [calculate_difference, h]

/-- C8 witness: the spec's own scenario, floor 1.0 against offer 0.98. -/
theorem calculate_difference_spec_witness :
    calculate_difference (some 1) (some (49 / 50)) = some ((1 - 49 / 50) / 1 * 100) :=
  (calculate_difference_spec (some 1) (some (49 / 50))).2 1 (49 / 50) rfl rfl
    (by norm_num)

/-- C9 counterexample: with subscribers at depths 1 and 2 and the matching
deal on page 2, the depth-1 subscriber's cycle output differs from the
output over its own-depth prefix — the code filters the whole fetched set. -/
theorem cycle_not_own_depth_counterexample :
    cycleDealsFor cycUsers cycPr cfgA ≠
      userDeals (fetch_deals cycPr cfgA.pages) cfgA := by
  have hmax : fetch_deals cycPr (maxPages cycUsers) = [dealA] := by decide
  have h1 : cycleDealsFor cycUsers cycPr cfgA = [dealA] := by
    rw [cycleDealsFor, hmax]
    show filter_deals [dealA] 0 10 10 [] = [dealA]
    exact filter_single_eval
  have hown : fetch_deals cycPr cfgA.pages = [] := by decide
  have h2 : userDeals (fetch_deals cycPr cfgA.pages) cfgA = [] := by
    rw [hown]
    show filter_deals [] 0 10 10 [] = []
    simp [filter_deals]
  rw [h1, h2]
  simp

/-- C9 amended: one shared fetch at the maximum active depth; every active
subscriber's own depth is dominated by it, and every matching deal of the
whole fetched set — not only of the subscriber's own-depth prefix — reaches
that subscriber's cycle output. -/
theorem cycle_shared_fetch_full_set (users : List (Nat × UserCfg))
    (pageResults : Nat → List Deal) (uid : Nat) (cfg : UserCfg)
    (hact : (uid, cfg) ∈ activeUsers users) :
    cfg.pages ≤ maxPages users ∧
    ∀ d ∈ fetch_deals pageResults (maxPages users),
      dealMatches cfg.price_min cfg.price_max cfg.diff_max cfg.excluded d = true →
      d ∈ cycleDealsFor users pageResults cfg := by
  constructor
  · exact mem_le_foldl_max _ 0 cfg.pages (List.mem_map.mpr ⟨(uid, cfg), hact, rfl⟩)
  · intro d hd hm
    rw [cycleDealsFor, userDeals, mem_filter_deals]
    exact ⟨hd, hm⟩

/-- C9 amended witness: the page-2 deal reaches the depth-1 subscriber. -/
theorem cycle_shared_fetch_full_set_witness :
    cfgA.pages ≤ maxPages cycUsers ∧ dealA ∈ cycleDealsFor cycUsers cycPr cfgA := by
  have h := cycle_shared_fetch_full_set cycUsers cycPr 1 cfgA (by decide)
  refine ⟨h.1, h.2 dealA ?_ ?_⟩
  · rw [show fetch_deals cycPr (maxPages cycUsers) = [dealA] from by decide]
    exact List.mem_singleton_self dealA
  · decide

/-- C10: a defined native floor or offer requires the corresponding native
symbol to be exactly `"ETH"`; an item that is non-ETH on both sides has no
native prices, no spread, and never passes `filter_deals`. -/
theorem non_eth_pricing (item : RawItem) :
    ((extract_pricing item).eth_floor.isSome = true →
      floorNativeSymbol item = some "ETH") ∧
    ((extract_pricing item).eth_offer.isSome = true →
      offerNativeSymbol item = some "ETH") ∧
    (¬floorNativeSymbol item = some "ETH" → ¬offerNativeSymbol item = some "ETH" →
      (extract_pricing item).eth_floor = none ∧
      (extract_pricing item).eth_offer = none ∧
      (dealOfItem item).difference_percent = none ∧
      ∀ ds price_min price_max diff_max excluded,
        dealOfItem item ∉ filter_deals ds price_min price_max diff_max excluded) := by
  refine ⟨eth_floor_requires_eth item, eth_offer_requires_eth item, ?_⟩
  intro hf ho
  have h1 : (extract_pricing item).eth_floor = none := by
    by_contra hne
    exact hf (eth_floor_requires_eth item (Option.isSome_iff_ne_none.mpr hne))
  have h2 : (extract_pricing item).eth_offer = none := by
    by_contra hne
    exact ho (eth_offer_requires_eth item (Option.isSome_iff_ne_none.mpr hne))
  have hdiff : (dealOfItem item).difference_percent = none := by
    have he : (dealOfItem item).difference_percent =
        calculate_difference (extract_pricing item).eth_floor
          (extract_pricing item).eth_offer := rfl
    rw [he, h1, h2]
    rfl
  refine ⟨h1, h2, hdiff, ?_⟩
  intro ds price_min price_max diff_max excluded hmem
  rw [mem_filter_deals] at hmem
  obtain ⟨-, hm⟩ := hmem
  rw [dealMatches_iff] at hm
  obtain ⟨-, -, ⟨q, hq, -⟩⟩ := hm
  rw [hdiff] at hq
  exact Option.noConfusion hq

/-- C10 witness: an item priced in SOL on both sides. -/
theorem non_eth_pricing_witness :
    (extract_pricing itemSol).eth_floor = none ∧
    (extract_pricing itemSol).eth_offer = none ∧
    (dealOfItem itemSol).difference_percent = none ∧
    ∀ ds price_min price_max diff_max excluded,
      dealOfItem itemSol ∉ filter_deals ds price_min price_max diff_max excluded :=
  (non_eth_pricing itemSol).2.2 (by decide) (by decide)

end OpenSea
